import Mathlib

/-
Verification of the reconciliation pipeline in `src/app.py` (shoolinrush/merger).

The pipeline merges supplier stock tables: per-source column mapping with
duplicate-assignment detection, a per-source stock filter, concatenation,
ISBN canonicalization and deduplication, a zero filter on PRICE/STOCK,
currency conversion against a fixed rate table, and a categorical sort by
company priority.

Modelling conventions, in one place:
  * Cell values are `PyVal`: an exact rational (Python int/float), a string,
    or `na` (pandas missing value / NaN).  Rates are `PyNum` so that the
    int-vs-float distinction of the literals in `CURRENCY_CONVERSION`
    (ints for INR/RS/RS., floats elsewhere) is kept: Python multiplies a
    str by an int (repetition) but raises a TypeError on str * float.
  * A table is a `List Row`; column presence, which in pandas is a property
    of the whole frame, is passed as explicit Boolean flags to each stage.
  * Operations that can raise return `Except Unit`.
  * Python `str.strip` / `str.upper` are modelled character-wise on
    `String.data`.
-/


namespace Merger

/-- Python number as it appears in the rate table: int or float literal
(floats carried as exact rationals). -/
inductive PyNum : Type where
  | i : Int → PyNum
  | f : ℚ → PyNum
deriving DecidableEq

/-- Numeric value of a `PyNum`. -/
def PyNum.toRat : PyNum → ℚ
  | .i n => (n : ℚ)
  | .f q => q

/-- Value of one cell of a pandas column: a number, a string, or missing
(NaN / pd.NA). -/
inductive PyVal : Type where
  | num : ℚ → PyVal
  | str : String → PyVal
  | na : PyVal
deriving DecidableEq

/-- One row of a (merged) table, with the canonical fields the claims are
about.  `isbn` and `currency` columns are string-typed in the program
(`dtype=str` on read, `astype(str)` later), so they are `Option String`
with `none` for a missing value; `price` and `stock` are raw cells. -/
structure Row where
  isbn : Option String := none
  title : Option String := none
  stock : PyVal := PyVal.na
  currency : Option String := none
  price : PyVal := PyVal.na
  company : Option String := none
  handling : Option String := none
deriving DecidableEq

/-- STANDARD_COLUMNS from `app.py` line 8. -/
def STANDARD_COLUMNS : List String :=
  ["ISBN", "TITLE", "AUTHOR", "PUBLISHER", "STOCK", "CURRENCY", "PRICE", "COMPANY", "HANDLING"]

/-- COMPANY_OPTIONS from `app.py` lines 11-22: company name ↦ handling code. -/
def COMPANY_OPTIONS : List (String × String) :=
  [("Adarsh", "2"), ("Adhya", "2"), ("UDH", "2"), ("RUPA", "2"),
   ("Prakash Delhi", "2"), ("Prakash Noida", "4"), ("IBD", "2"),
   ("GBD", "2"), ("ECP", "2"), ("VCP", "2")]

/-- COMPANY_ORDER from `app.py` line 23: the fixed priority order of the sort. -/
def COMPANY_ORDER : List String :=
  ["Adarsh", "GBD", "ECP", "IBD", "Prakash Delhi", "VCP", "Prakash Noida"]

/-- STOCK_CONDITIONS from `app.py` lines 26-37: company ↦ minimum stock. -/
def STOCK_CONDITIONS : List (String × ℚ) :=
  [("Adarsh", 10), ("Adhya", 2), ("UDH", 0), ("RUPA", 5),
   ("Prakash Delhi", 4), ("Prakash Noida", 4), ("IBD", 3),
   ("GBD", 5), ("ECP", 0), ("VCP", 3)]

/-- CURRENCY_CONVERSION from `app.py` lines 40-52.  INR, RS and RS. are the
integer literal 1 in the source; the others are float literals. -/
def CURRENCY_CONVERSION : List (String × PyNum) :=
  [("USD", .f 90.60), ("GBP", .f 113.80), ("EUR", .f 94.70),
   ("INR", .i 1), ("RS", .i 1), ("RS.", .i 1),
   ("UKP", .f 113.80), ("EU", .f 94.70),
   ("€", .f 94.70), ("£", .f 113.80), ("$", .f 90.60)]

/-- Python `str.strip()` (also pandas `.str.strip()`): drop leading and
trailing whitespace characters. -/
def pyStrip (s : String) : String :=
  String.mk (((s.data.dropWhile Char.isWhitespace).reverse.dropWhile Char.isWhitespace).reverse)

/-- Python `str.upper()` (also pandas `.str.upper()`), character-wise. -/
def pyUpper (s : String) : String :=
  String.mk (s.data.map Char.toUpper)

/-- Pandas `.astype(str)` on a string column: a missing value prints as
"nan", a string is unchanged. -/
def astypeStr : Option String → String
  | some s => s
  | none => "nan"

/-- Regex replace of `[^\dXx]` by the empty string (`app.py` line 176):
keep only decimal digits and the letters X and x. -/
def stripNonISBN (s : String) : String :=
  String.mk (s.data.filter fun c => c.isDigit || c == 'X' || c == 'x')

/-- ISBN canonicalization of one cell (`app.py` lines 172-177):
astype(str), strip, drop every character that is not a digit or X/x,
then send the sentinel strings "nan" / "NaN" / "" / "0" to missing. -/
def cleanISBN (v : Option String) : Option String :=
  let s := stripNonISBN (pyStrip (astypeStr v))
  if s = "nan" ∨ s = "NaN" ∨ s = "" ∨ s = "0" then none else some s

/-- ISBN canonicalization applied to a row. -/
def cleanISBNRow (r : Row) : Row :=
  { r with isbn := cleanISBN r.isbn }


/-- Core of pandas `drop_duplicates(subset=[k], keep="first")`: keep a row
iff its key has not been hashed before.  Pandas hashes missing values to a
single NA key, so two NA keys count as duplicates of each other. -/
def dedupByKey {α κ : Type} [DecidableEq κ] (key : α → κ) : List κ → List α → List α
  | _, [] => []
  | seen, a :: as =>
    if key a ∈ seen then dedupByKey key seen as
    else a :: dedupByKey key (key a :: seen) as


/-- Pandas `merged_df.drop_duplicates(subset=["ISBN"], keep="first")`
(`app.py` line 180) on the row list. -/
def drop_duplicates_ISBN (rows : List Row) : List Row :=
  dedupByKey Row.isbn [] rows

/-- Index-tagged view of `drop_duplicates_ISBN`: the surviving rows of
`rows` together with their positions in pre-dedup table order. -/
def keptPairs (rows : List Row) : List (Nat × Row) :=
  dedupByKey (fun p => p.2.isbn) [] rows.enum

/-- ISBN block of the cleaning stage (`app.py` lines 171-180): if the ISBN
column is present, canonicalize it on every row, then drop duplicates
keeping the first occurrence. -/
def isbn_clean_dedup (hasISBN : Bool) (rows : List Row) : List Row :=
  if hasISBN then drop_duplicates_ISBN (rows.map cleanISBNRow) else rows


def exRowA : Row := { title := some "a", isbn := some "12-3" }

def exRowB : Row := { title := some "b", isbn := some " 123 " }

def exTable : List Row := [exRowA, exRowB]


def exNaRowA : Row := { title := some "p", isbn := some "ab" }

def exNaRowB : Row := { title := some "q", isbn := none }

def exNaTable : List Row := [exNaRowA, exNaRowB]


/-- Python string repetition `s * n` (empty for non-positive n). -/
def strRepeat : Nat → String → String
  | 0, _ => ""
  | n + 1, s => s ++ strRepeat n s

/-- Python `row["PRICE"] * rate` as `df.apply` evaluates it per row
(`app.py` lines 190-193): number * number multiplies, str * int is
repetition, str * float raises a TypeError, NaN * anything is NaN. -/
def pyMul : PyVal → PyNum → Except Unit PyVal
  | .num q, rate => .ok (.num (q * rate.toRat))
  | .str s, .i n => .ok (.str (strRepeat n.toNat s))
  | .str _, .f _ => .error ()
  | .na, _ => .ok .na

/-- Normalized currency code of a row (`app.py` line 189): astype(str),
strip, upper. -/
def normCode (c : Option String) : String :=
  pyUpper (pyStrip (astypeStr c))

/-- Rate resolution (`app.py` line 191):
`CURRENCY_CONVERSION.get(code, 1.0)`; the fallback for a code that is not
in the table is the float 1.0. -/
def rateFor (code : String) : PyNum :=
  (List.lookup code CURRENCY_CONVERSION).getD (.f 1)

/-- Currency conversion of one row (`app.py` lines 189-194): multiply
PRICE by the rate resolved for the normalized pre-conversion code, then
set CURRENCY to the base code INR. -/
def convertRow (r : Row) : Except Unit Row :=
  match pyMul r.price (rateFor (normCode r.currency)) with
  | .ok p => .ok { r with currency := some "INR", price := p }
  | .error e => .error e

/-- Row-wise `df.apply` over the whole table: a raising row aborts the
stage. -/
def convertRows : List Row → Except Unit (List Row)
  | [] => .ok []
  | r :: rs =>
    match convertRow r, convertRows rs with
    | .ok r', .ok rs' => .ok (r' :: rs')
    | .error e, _ => .error e
    | .ok _, .error e => .error e

/-- Currency-conversion stage (`app.py` lines 188-194): runs only when the
CURRENCY and PRICE columns are both present. -/
def currencyStep (hasCurrency hasPrice : Bool) (rows : List Row) : Except Unit (List Row) :=
  if hasCurrency && hasPrice then convertRows rows else .ok rows

/-- Pandas `col != 0` on one cell: NaN != 0 and "s" != 0 are both True. -/
def pyNE0 : PyVal → Bool
  | .num q => decide (q ≠ 0)
  | .str _ => true
  | .na => true

/-- Zero filter (`app.py` lines 182-185): drop rows whose PRICE is 0, then
rows whose STOCK is 0, for whichever of the two columns exists. -/
def zeroFilter (hasPrice hasStock : Bool) (rows : List Row) : List Row :=
  let rows1 := if hasPrice then rows.filter (fun r => pyNE0 r.price) else rows
  if hasStock then rows1.filter (fun r => pyNE0 r.stock) else rows1

/-- Value of a list of decimal digit characters. -/
def digitsToNat (l : List Char) : Nat :=
  l.foldl (fun a c => a * 10 + (c.toNat - '0'.toNat)) 0

/-- Numeric-literal parsing behind `pd.to_numeric`: optional surrounding
whitespace, optional sign, then a decimal integer or decimal fraction;
anything else fails. -/
def parseNumeric (s : String) : Option ℚ :=
  let t := (pyStrip s).data
  let signBody : ℚ × List Char :=
    match t with
    | '-' :: rest => (-1, rest)
    | '+' :: rest => (1, rest)
    | rest => (1, rest)
  let intPart := signBody.2.takeWhile Char.isDigit
  let rest := signBody.2.dropWhile Char.isDigit
  match rest with
  | [] => if intPart.isEmpty then none else some (signBody.1 * (digitsToNat intPart : ℚ))
  | '.' :: frac =>
    if frac.all Char.isDigit ∧ ¬(intPart.isEmpty ∧ frac.isEmpty) then
      some (signBody.1 * ((digitsToNat intPart : ℚ) + (digitsToNat frac : ℚ) / (10 ^ frac.length : ℚ)))
    else none
  | _ => none

/-- `pd.to_numeric(col, errors="coerce")` on one cell (`app.py` line 146):
numbers pass through, parseable strings become numbers, anything else
becomes NaN.  Total: coercion itself never raises. -/
def to_numeric : PyVal → PyVal
  | .num q => .num q
  | .str s =>
    match parseNumeric s with
    | some q => .num q
    | none => .na
  | .na => .na

/-- Pandas `col >= t` on one coerced cell: NaN >= t is False. -/
def pyGE (v : PyVal) (t : ℚ) : Bool :=
  match v with
  | .num q => decide (t ≤ q)
  | _ => false

/-- STOCK coercion applied to a row (`app.py` line 146). -/
def coerceStock (r : Row) : Row :=
  { r with stock := to_numeric r.stock }

/-- Stock filter (`app.py` lines 143-148): when the renamed table has a
STOCK column and the company has a threshold, coerce STOCK to numeric and
keep only rows with STOCK >= that minimum. -/
def stockFilterStep (hasStock : Bool) (company : String) (rows : List Row) : List Row :=
  match hasStock, List.lookup company STOCK_CONDITIONS with
  | true, some t => (rows.map coerceStock).filter (fun r => pyGE r.stock t)
  | _, _ => rows

/-- COMPANY / HANDLING stamping (`app.py` lines 154-155). -/
def stampCompany (company : String) (r : Row) : Row :=
  { r with company := some company,
           handling := some ((List.lookup company COMPANY_OPTIONS).getD "0") }

/-- Per-source normalization after renaming (`app.py` lines 143-156). -/
def normalizeSource (hasStock : Bool) (company : String) (rows : List Row) : List Row :=
  (stockFilterStep hasStock company rows).map (stampCompany company)

/-- Placeholder option of the mapping select box (`app.py` line 97). -/
def leaveBlank : String := "(Leave Blank)"

/-- Duplicate-scan loop of `app.py` lines 102-107 over the selected target
of every source column in display order: a non-blank selection that was
already assigned is appended to the duplicate list, otherwise it is
recorded as assigned. -/
def dupScan : List String → List String → List String → List String
  | _, dups, [] => dups
  | assigned, dups, s :: rest =>
    if s = leaveBlank then dupScan assigned dups rest
    else if s ∈ assigned then dupScan assigned (dups ++ [s]) rest
    else dupScan (assigned ++ [s]) dups rest

/-- duplicate_assigned for one source (`app.py` lines 89-107): the
canonical fields selected as target more than once. -/
def duplicate_assigned (selecteds : List String) : List String :=
  dupScan [] [] selecteds

/-- One uploaded file as the merge loop sees it: name, the selected target
of each original column in order, the chosen company, and its rows. -/
structure SourceInput where
  name : String
  selected : List String
  company : String
  rows : List Row
deriving DecidableEq

/-- duplicate_assignment_errors (`app.py` lines 109-110): per file, the
non-empty duplicate lists. -/
def duplicateErrors (files : List SourceInput) : List (String × List String) :=
  files.filterMap fun f =>
    let d := duplicate_assigned f.selected
    if d.isEmpty then none else some (f.name, d)

/-- Per-file processing inside the merge loop (`app.py` lines 130-157):
skip the file when no column is selected, else stock-filter and stamp.
After renaming, the STOCK column exists iff some column was mapped to it. -/
def processFile (f : SourceInput) : Option (List Row) :=
  if (f.selected.filter (fun s => s ≠ leaveBlank)).isEmpty then none
  else some (normalizeSource (f.selected.contains "STOCK") f.company f.rows)

/-- pd.concat of the processed files (`app.py` line 165). -/
def mergeFiles (files : List SourceInput) : List Row :=
  (files.filterMap processFile).flatten

/-- Gate in front of the merge button (`app.py` lines 121-124): while any
file has a duplicate assignment, the merge branch is never entered. -/
def runApp (files : List SourceInput) : Option (List Row) :=
  if (duplicateErrors files).isEmpty then some (mergeFiles files) else none

/-- pd.Categorical(col, categories=COMPANY_ORDER) on one row (`app.py`
line 197): a company outside the category list becomes NaN. -/
def categorizeCompany (r : Row) : Row :=
  { r with company :=
      match r.company with
      | some s => if s ∈ COMPANY_ORDER then some s else none
      | none => none }

/-- Categorical code of a row's COMPANY: its position in COMPANY_ORDER,
none for NaN. -/
def rowRank (r : Row) : Option Nat :=
  match r.company with
  | some s => List.indexOf? s COMPANY_ORDER
  | none => none

/-- Key order used by `sort_values(by="COMPANY")`: category codes
ascending, NaN placed last (default na_position="last"). -/
def rankLE (a b : Option Nat) : Bool :=
  match a, b with
  | some x, some y => decide (x ≤ y)
  | some _, none => true
  | none, some _ => false
  | none, none => true

/-- Output contract of `sort_values` (`app.py` line 198) with its default
(not stability-guaranteeing) algorithm: adjacent rows of the output are in
key order.  A compliant output is any permutation of the categorized table
satisfying this. -/
def sortedByCompany (l : List Row) : Prop :=
  List.Chain' (fun a b => rankLE (rowRank a) (rowRank b) = true) l

def exUsdRow : Row := { price := .num 10, currency := some " usd " }

def exUsdRowConv : Row :=
  { exUsdRow with currency := some "INR",
                  price := .num (10 * (rateFor (normCode exUsdRow.currency)).toRat) }

def exGbpRow : Row := { price := .num 20, currency := some "gbp" }

def exGbpRowConv : Row :=
  { exGbpRow with currency := some "INR",
                  price := .num (20 * (rateFor (normCode exGbpRow.currency)).toRat) }

def exNaPriceRow : Row := { price := .na, currency := some "usd" }

def exNaPriceRowConv : Row := { exNaPriceRow with currency := some "INR", price := .na }

def exBadPriceRow : Row := { price := .str "N/A", currency := some "USD" }

def exStockTable : List Row :=
  [{ stock := .num 12 }, { stock := .num 5 }, { stock := .str "n/a" }, { stock := .na }]

def exBadFile : SourceInput :=
  { name := "a.xlsx", selected := ["ISBN", "TITLE", "TITLE"], company := "Adarsh", rows := [] }

def exSortRows : List Row :=
  [{ company := some "RUPA", title := some "r" }, { company := some "GBD", title := some "g" }]

def exSortOut : List Row :=
  [{ company := some "GBD", title := some "g" }, { company := none, title := some "r" }]

-- ## Theorems

/-- Claim C7: after ISBN canonicalization the value is either missing
("no value") or a string made only of decimal digits and the letter X
(either case). -/
theorem isbn_clean_charset (v : Option String) (s : String)
    (h : cleanISBN v = some s) :
    ∀ c ∈ s.data, (c.isDigit = true ∨ c = 'X' ∨ c = 'x') := by
  intro c hc
  unfold cleanISBN at h
  by_cases hs :
      stripNonISBN (pyStrip (astypeStr v)) = "nan" ∨
      stripNonISBN (pyStrip (astypeStr v)) = "NaN" ∨
      stripNonISBN (pyStrip (astypeStr v)) = "" ∨
      stripNonISBN (pyStrip (astypeStr v)) = "0"
  · simp [hs] at h
  · simp only [hs, if_false, Option.some.injEq] at h
    subst h
    have hmem : c ∈ (pyStrip (astypeStr v)).data.filter
        (fun c => c.isDigit || c == 'X' || c == 'x') := hc
    have := List.of_mem_filter hmem
    rcases Bool.or_eq_true_iff.mp this with h1 | h2
    · rcases Bool.or_eq_true_iff.mp h1 with ha | hb
      · exact Or.inl ha
      · exact Or.inr (Or.inl (by simpa using hb))
    · exact Or.inr (Or.inr (by simpa using h2))

/-- Witness for C7 at a concrete dirty ISBN. -/
theorem isbn_clean_charset_witness :
    cleanISBN (some " 978-0-13-468599-1x ") = some "9780134685991x" ∧
    ∀ c ∈ ("9780134685991x" : String).data, (c.isDigit = true ∨ c = 'X' ∨ c = 'x') :=
  ⟨by decide, isbn_clean_charset (some " 978-0-13-468599-1x ") "9780134685991x" (by decide)⟩


theorem dedupByKey_nil {α κ : Type} [DecidableEq κ] (key : α → κ) (seen : List κ) :
    dedupByKey key seen [] = [] := rfl

theorem dedupByKey_cons {α κ : Type} [DecidableEq κ] (key : α → κ) (seen : List κ)
    (a : α) (as : List α) :
    dedupByKey key seen (a :: as) =
      if key a ∈ seen then dedupByKey key seen as
      else a :: dedupByKey key (key a :: seen) as := rfl

theorem mem_of_mem_dedupByKey {α κ : Type} [DecidableEq κ] (key : α → κ) :
    ∀ (l : List α) (seen : List κ) (b : α), b ∈ dedupByKey key seen l → b ∈ l := by
  intro l
  induction l with
  | nil => intro seen b h; simp [dedupByKey_nil] at h
  | cons x xs ih =>
    intro seen b h
    rw [dedupByKey_cons] at h
    by_cases hx : key x ∈ seen
    · rw [if_pos hx] at h
      exact List.mem_cons_of_mem x (ih _ _ h)
    · rw [if_neg hx] at h
      rcases List.mem_cons.mp h with rfl | h
      · exact List.mem_cons_self _ _
      · exact List.mem_cons_of_mem x (ih _ _ h)

theorem key_not_seen_of_mem_dedupByKey {α κ : Type} [DecidableEq κ] (key : α → κ) :
    ∀ (l : List α) (seen : List κ) (b : α), b ∈ dedupByKey key seen l → key b ∉ seen := by
  intro l
  induction l with
  | nil => intro seen b h; simp [dedupByKey_nil] at h
  | cons x xs ih =>
    intro seen b h
    rw [dedupByKey_cons] at h
    by_cases hx : key x ∈ seen
    · rw [if_pos hx] at h
      exact ih _ _ h
    · rw [if_neg hx] at h
      rcases List.mem_cons.mp h with rfl | h
      · exact hx
      · intro hmem
        exact ih _ _ h (List.mem_cons_of_mem _ hmem)

theorem eq_of_mem_dedupByKey {α κ : Type} [DecidableEq κ] (key : α → κ) :
    ∀ (l : List α) (seen : List κ) (a b : α),
      a ∈ dedupByKey key seen l → b ∈ dedupByKey key seen l → key a = key b → a = b := by
  intro l
  induction l with
  | nil => intro seen a b ha _ _; simp [dedupByKey_nil] at ha
  | cons x xs ih =>
    intro seen a b ha hb hk
    rw [dedupByKey_cons] at ha hb
    by_cases hx : key x ∈ seen
    · rw [if_pos hx] at ha hb
      exact ih _ a b ha hb hk
    · rw [if_neg hx] at ha hb
      rcases List.mem_cons.mp ha with rfl | ha
      · rcases List.mem_cons.mp hb with rfl | hb
        · rfl
        · exact absurd (hk ▸ List.mem_cons_self (key a) seen)
            (key_not_seen_of_mem_dedupByKey key xs _ b hb)
      · rcases List.mem_cons.mp hb with rfl | hb
        · exact absurd (hk ▸ List.mem_cons_self (key b) seen)
            (hk ▸ key_not_seen_of_mem_dedupByKey key xs _ a ha)
        · exact ih _ a b ha hb hk

theorem exists_mem_dedupByKey {α κ : Type} [DecidableEq κ] (key : α → κ) :
    ∀ (l : List α) (seen : List κ) (a : α), a ∈ l → key a ∉ seen →
      ∃ b, b ∈ dedupByKey key seen l ∧ key b = key a := by
  intro l
  induction l with
  | nil => intro seen a ha _; simp at ha
  | cons x xs ih =>
    intro seen a ha hseen
    rw [dedupByKey_cons]
    by_cases hx : key x ∈ seen
    · rw [if_pos hx]
      rcases List.mem_cons.mp ha with rfl | ha
      · exact absurd hx hseen
      · exact ih _ a ha hseen
    · rw [if_neg hx]
      by_cases hkey : key a = key x
      · exact ⟨x, List.mem_cons_self _ _, hkey.symm⟩
      · have ha' : a ∈ xs := by
          rcases List.mem_cons.mp ha with rfl | ha
          · exact absurd rfl hkey
          · exact ha
        have hseen' : key a ∉ key x :: seen := by
          intro h
          rcases List.mem_cons.mp h with h | h
          · exact hkey h
          · exact hseen h
        obtain ⟨b, hb, hbk⟩ := ih (key x :: seen) a ha' hseen'
        exact ⟨b, List.mem_cons_of_mem x hb, hbk⟩

theorem fst_le_of_mem_enumFrom {β : Type} :
    ∀ (l : List β) (n : Nat) (p : Nat × β), p ∈ List.enumFrom n l → n ≤ p.1 := by
  intro l
  induction l with
  | nil => intro n p hp; simp [List.enumFrom] at hp
  | cons x xs ih =>
    intro n p hp
    rcases List.mem_cons.mp hp with rfl | hp
    · exact Nat.le_refl n
    · exact Nat.le_of_succ_le (ih (n + 1) p hp)

/-- In the output of the first-kept dedup over an index-tagged list, a kept
pair is the first occurrence of its key: no strictly earlier pair carries
the same key. -/
theorem not_earlier_key_of_mem_dedup_enumFrom {β κ : Type} [DecidableEq κ] (k : β → κ) :
    ∀ (l : List β) (n : Nat) (seen : List κ) (m : Nat) (r : β) (j : Nat) (r' : β),
      (m, r) ∈ dedupByKey (fun p => k p.2) seen (List.enumFrom n l) →
      (j, r') ∈ List.enumFrom n l → j < m → k r' ≠ k r := by
  intro l
  induction l with
  | nil => intro n seen m r j r' hm _ _; simp [List.enumFrom, dedupByKey_nil] at hm
  | cons x xs ih =>
    intro n seen m r j r' hm hj hjm hkey
    have henum : List.enumFrom n (x :: xs) = (n, x) :: List.enumFrom (n + 1) xs := rfl
    rw [henum] at hm hj
    rw [dedupByKey_cons] at hm
    by_cases hx : k x ∈ seen
    · rw [if_pos hx] at hm
      have hr : k r ∉ seen := key_not_seen_of_mem_dedupByKey (fun p => k p.2) _ seen (m, r) hm
      rcases List.mem_cons.mp hj with hpair | hj
      · have : r' = x := congrArg Prod.snd hpair
        subst this
        exact hr (hkey ▸ hx)
      · exact ih (n + 1) seen m r j r' hm hj hjm hkey
    · rw [if_neg hx] at hm
      rcases List.mem_cons.mp hm with hpair | hm
      · have hmn : m = n := congrArg Prod.fst hpair
        rcases List.mem_cons.mp hj with hpair' | hj
        · have : j = n := congrArg Prod.fst hpair'
          omega
        · have := fst_le_of_mem_enumFrom xs (n + 1) (j, r') hj
          simp at this
          omega
      · have hr : k r ∉ k x :: seen :=
          key_not_seen_of_mem_dedupByKey (fun p => k p.2) _ _ (m, r) hm
        rcases List.mem_cons.mp hj with hpair' | hj
        · have : r' = x := congrArg Prod.snd hpair'
          subst this
          exact hr (hkey ▸ List.mem_cons_self _ _)
        · exact ih (n + 1) (k x :: seen) m r j r' hm hj hjm hkey

/-- Projecting the index tags away from the index-tagged dedup gives the
plain dedup. -/
theorem dedup_enumFrom_map_snd {β κ : Type} [DecidableEq κ] (k : β → κ) :
    ∀ (l : List β) (n : Nat) (seen : List κ),
      (dedupByKey (fun p => k p.2) seen (List.enumFrom n l)).map Prod.snd =
        dedupByKey k seen l := by
  intro l
  induction l with
  | nil => intro n seen; rfl
  | cons x xs ih =>
    intro n seen
    have henum : List.enumFrom n (x :: xs) = (n, x) :: List.enumFrom (n + 1) xs := rfl
    rw [henum, dedupByKey_cons, dedupByKey_cons]
    by_cases hx : k x ∈ seen
    · rw [if_pos hx, if_pos hx]
      exact ih (n + 1) seen
    · rw [if_neg hx, if_neg hx]
      simp only [List.map_cons]
      rw [ih (n + 1) (k x :: seen)]


theorem isbn_clean_dedup_eq_map_keptPairs (rows : List Row) :
    isbn_clean_dedup true rows = (keptPairs (rows.map cleanISBNRow)).map Prod.snd := by
  unfold isbn_clean_dedup keptPairs drop_duplicates_ISBN
  rw [if_pos rfl]
  exact (dedup_enumFrom_map_snd Row.isbn (rows.map cleanISBNRow) 0 []).symm

/-- Shared core of the deduplication claims, for an arbitrary key value
`v` (a real ISBN string or the NA key): of two rows whose ISBN equals `v`,
the later one is dropped, and some row at or before the earlier one with
the same key survives. -/
theorem keptPairs_first_occurrence (l : List Row) (i j : Fin l.length) (hij : i.val < j.val)
    (v : Option String) (hi : (l.get i).isbn = v) (hj : (l.get j).isbn = v) :
    (j.val, l.get j) ∉ keptPairs l ∧
    ∃ m : Fin l.length, m.val ≤ i.val ∧ (l.get m).isbn = v ∧
      (m.val, l.get m) ∈ keptPairs l := by
  have henum_i : (i.val, l.get i) ∈ l.enum := by
    rw [List.mk_mem_enum_iff_getElem?]
    rw [List.getElem?_eq_getElem i.isLt]
    rw [List.get_eq_getElem]
  have henum_j : (j.val, l.get j) ∈ l.enum := by
    rw [List.mk_mem_enum_iff_getElem?]
    rw [List.getElem?_eq_getElem j.isLt]
    rw [List.get_eq_getElem]
  constructor
  · intro hmem
    exact not_earlier_key_of_mem_dedup_enumFrom Row.isbn l 0 [] j.val (l.get j)
      i.val (l.get i) hmem henum_i hij (hi.trans hj.symm)
  · have hnotseen : (l.get i).isbn ∉ ([] : List (Option String)) := List.not_mem_nil _
    obtain ⟨b, hb, hbk⟩ :=
      exists_mem_dedupByKey (fun p => p.2.isbn) l.enum [] (i.val, l.get i) henum_i hnotseen
    obtain ⟨m, rb⟩ := b
    have hbenum : (m, rb) ∈ l.enum :=
      mem_of_mem_dedupByKey (fun p => p.2.isbn) l.enum [] (m, rb) hb
    rw [List.mk_mem_enum_iff_getElem?] at hbenum
    have hmlt : m < l.length := by
      rcases List.getElem?_eq_some.mp hbenum with ⟨h, _⟩
      exact h
    have hrb : rb = l.get ⟨m, hmlt⟩ := by
      rcases List.getElem?_eq_some.mp hbenum with ⟨h, hrb⟩
      rw [List.get_eq_getElem]
      exact hrb.symm
    have hkeym : (l.get ⟨m, hmlt⟩).isbn = v := by
      rw [← hrb]
      exact hbk.trans hi
    have hmle : m ≤ i.val := by
      by_contra hlt
      push_neg at hlt
      exact not_earlier_key_of_mem_dedup_enumFrom Row.isbn l 0 [] m rb
        i.val (l.get i) hb henum_i hlt hbk.symm
    refine ⟨⟨m, hmlt⟩, hmle, hkeym, ?_⟩
    rw [← hrb]
    exact hb

/-- Claim C2: two merged rows with the same canonicalized real ISBN — the
later one (in pre-dedup table order) never survives `drop_duplicates`, and
the first occurrence of that ISBN does survive. -/
theorem isbn_dedup_keeps_first_occurrence (rows : List Row) (i j : Fin rows.length)
    (hij : i.val < j.val) (s : String)
    (hi : cleanISBN (rows.get i).isbn = some s) (hj : cleanISBN (rows.get j).isbn = some s) :
    (j.val, cleanISBNRow (rows.get j)) ∉ keptPairs (rows.map cleanISBNRow) ∧
    ∃ m : Fin rows.length, m.val ≤ i.val ∧ cleanISBN (rows.get m).isbn = some s ∧
      (m.val, cleanISBNRow (rows.get m)) ∈ keptPairs (rows.map cleanISBNRow) := by
  have hlen : (rows.map cleanISBNRow).length = rows.length := List.length_map _ _
  have hget : ∀ (p : Nat) (hp : p < rows.length),
      (rows.map cleanISBNRow).get ⟨p, by rw [hlen]; exact hp⟩ = cleanISBNRow (rows.get ⟨p, hp⟩) := by
    intro p hp
    simp [List.get_eq_getElem, List.getElem_map]
  have h := keptPairs_first_occurrence (rows.map cleanISBNRow)
    ⟨i.val, by rw [hlen]; exact i.isLt⟩ ⟨j.val, by rw [hlen]; exact j.isLt⟩ hij (some s)
    (by rw [hget i.val i.isLt]; exact hi) (by rw [hget j.val j.isLt]; exact hj)
  rcases h with ⟨hdrop, ⟨m, hmle, hmkey, hmmem⟩⟩
  constructor
  · rw [hget j.val j.isLt] at hdrop
    exact hdrop
  · have hmlt : m.val < rows.length := by rw [← hlen]; exact m.isLt
    have h1 : (rows.map cleanISBNRow).get m = cleanISBNRow (rows.get ⟨m.val, hmlt⟩) := by
      simp [List.get_eq_getElem, List.getElem_map]
    refine ⟨⟨m.val, hmlt⟩, hmle, ?_, ?_⟩
    · rw [h1] at hmkey
      exact hmkey
    · rw [h1] at hmmem
      exact hmmem


/-- Witness for C2 on a concrete two-row table sharing canonical ISBN 123. -/
theorem isbn_dedup_keeps_first_occurrence_witness :
    ((1 : Nat), cleanISBNRow exRowB) ∉ keptPairs (exTable.map cleanISBNRow) ∧
    ∃ m : Fin exTable.length, m.val ≤ 0 ∧ cleanISBN (exTable.get m).isbn = some "123" ∧
      (m.val, cleanISBNRow (exTable.get m)) ∈ keptPairs (exTable.map cleanISBNRow) :=
  isbn_dedup_keeps_first_occurrence exTable ⟨0, by decide⟩ ⟨1, by decide⟩ (by decide) "123"
    (by decide) (by decide)

/-- Counterexample to claim C3 as stated: two distinct rows whose ISBN
canonicalizes to "no value" are deduplicated against each other — the
second is removed, only the first survives. -/
theorem isbn_na_dedup_counterexample :
    isbn_clean_dedup true
        [{ title := some "a", isbn := some "ab" }, { title := some "b", isbn := some "cd" }] =
      [{ title := some "a", isbn := none }] ∧
    ({ title := some "b", isbn := some "cd" } : Row) ≠ { title := some "a", isbn := some "ab" } :=
  ⟨by decide, by decide⟩

/-- Claim C3 amended: rows with "no value" canonical ISBN are deduplicated
against each other exactly like a shared real key — the later row is
dropped and the first NA row survives. -/
theorem isbn_na_dedup_drops_later (rows : List Row) (i j : Fin rows.length)
    (hij : i.val < j.val)
    (hi : cleanISBN (rows.get i).isbn = none) (hj : cleanISBN (rows.get j).isbn = none) :
    (j.val, cleanISBNRow (rows.get j)) ∉ keptPairs (rows.map cleanISBNRow) ∧
    ∃ m : Fin rows.length, m.val ≤ i.val ∧ cleanISBN (rows.get m).isbn = none ∧
      (m.val, cleanISBNRow (rows.get m)) ∈ keptPairs (rows.map cleanISBNRow) := by
  have hlen : (rows.map cleanISBNRow).length = rows.length := List.length_map _ _
  have hget : ∀ (p : Nat) (hp : p < rows.length),
      (rows.map cleanISBNRow).get ⟨p, by rw [hlen]; exact hp⟩ = cleanISBNRow (rows.get ⟨p, hp⟩) := by
    intro p hp
    simp [List.get_eq_getElem, List.getElem_map]
  have h := keptPairs_first_occurrence (rows.map cleanISBNRow)
    ⟨i.val, by rw [hlen]; exact i.isLt⟩ ⟨j.val, by rw [hlen]; exact j.isLt⟩ hij none
    (by rw [hget i.val i.isLt]; exact hi) (by rw [hget j.val j.isLt]; exact hj)
  rcases h with ⟨hdrop, ⟨m, hmle, hmkey, hmmem⟩⟩
  constructor
  · rw [hget j.val j.isLt] at hdrop
    exact hdrop
  · have hmlt : m.val < rows.length := by rw [← hlen]; exact m.isLt
    have h1 : (rows.map cleanISBNRow).get m = cleanISBNRow (rows.get ⟨m.val, hmlt⟩) := by
      simp [List.get_eq_getElem, List.getElem_map]
    refine ⟨⟨m.val, hmlt⟩, hmle, ?_, ?_⟩
    · rw [h1] at hmkey
      exact hmkey
    · rw [h1] at hmmem
      exact hmmem


/-- Witness for the amended C3 on a concrete table with two NA ISBNs. -/
theorem isbn_na_dedup_drops_later_witness :
    ((1 : Nat), cleanISBNRow exNaRowB) ∉ keptPairs (exNaTable.map cleanISBNRow) ∧
    ∃ m : Fin exNaTable.length, m.val ≤ 0 ∧ cleanISBN (exNaTable.get m).isbn = none ∧
      (m.val, cleanISBNRow (exNaTable.get m)) ∈ keptPairs (exNaTable.map cleanISBNRow) :=
  isbn_na_dedup_drops_later exNaTable ⟨0, by decide⟩ ⟨1, by decide⟩ (by decide)
    (by decide) (by decide)


theorem convertRows_ok_forall₂ :
    ∀ (rows out : List Row), convertRows rows = .ok out →
      List.Forall₂ (fun r r' => convertRow r = .ok r') rows out := by
  intro rows
  induction rows with
  | nil =>
    intro out h
    simp only [convertRows, Except.ok.injEq] at h
    subst h
    exact List.Forall₂.nil
  | cons r rs ih =>
    intro out h
    simp only [convertRows] at h
    cases hr : convertRow r with
    | error e => rw [hr] at h; simp at h
    | ok r' =>
      cases hrs : convertRows rs with
      | error e => rw [hr, hrs] at h; simp at h
      | ok rs' =>
        rw [hr, hrs] at h
        simp only [Except.ok.injEq] at h
        subst h
        exact List.Forall₂.cons hr (ih rs' hrs)

/-- Claim C1: when the currency-conversion step succeeds, every row whose
pre-conversion PRICE is the number q ends with CURRENCY equal to the base
code INR and PRICE equal to q times the rate resolved for the trimmed,
uppercased pre-conversion code, and a code absent from the rate table
resolves to the fallback rate 1.0. -/
theorem currency_conversion_base_and_rate (rows out : List Row)
    (h : currencyStep true true rows = .ok out)
    (i : Nat) (hi : i < rows.length) (q : ℚ)
    (hq : (rows.get ⟨i, hi⟩).price = .num q) :
    (∃ hi' : i < out.length,
      (out.get ⟨i, hi'⟩).currency = some "INR" ∧
      (out.get ⟨i, hi'⟩).price =
        .num (q * (rateFor (normCode (rows.get ⟨i, hi⟩).currency)).toRat)) ∧
    ∀ code, List.lookup code CURRENCY_CONVERSION = none → rateFor code = .f 1 := by
  have hcv : convertRows rows = .ok out := by
    simpa [currencyStep] using h
  have hforall := convertRows_ok_forall₂ rows out hcv
  rcases List.forall₂_iff_get.mp hforall with ⟨hlen, hget⟩
  have hi' : i < out.length := hlen ▸ hi
  have hrow := hget i hi hi'
  unfold convertRow at hrow
  rw [hq] at hrow
  simp only [pyMul] at hrow
  have heq := Except.ok.inj hrow
  refine ⟨⟨hi', ?_, ?_⟩, ?_⟩
  · rw [← heq]
  · rw [← heq]
  · intro code hc
    unfold rateFor
    rw [hc]
    rfl

/-- Witness for C1: a 10-unit price in currency " usd " is rescaled with
the USD rate and restamped INR. -/
theorem currency_conversion_base_and_rate_witness :
    (∃ hi' : 0 < ([exUsdRowConv] : List Row).length,
      (([exUsdRowConv] : List Row).get ⟨0, hi'⟩).currency = some "INR" ∧
      (([exUsdRowConv] : List Row).get ⟨0, hi'⟩).price =
        .num (10 * (rateFor (normCode exUsdRow.currency)).toRat)) ∧
    ∀ code, List.lookup code CURRENCY_CONVERSION = none → rateFor code = .f 1 :=
  currency_conversion_base_and_rate [exUsdRow] [exUsdRowConv] rfl 0 (by decide) 10 rfl

/-- Counterexample to claim C9 as stated: the cleaning stage does not
coerce PRICE — the zero filter passes a non-numeric PRICE through as the
string it is — and the currency-conversion step then raises on it
(str * float is a TypeError). -/
theorem price_not_coerced_counterexample :
    zeroFilter true true [exBadPriceRow] = [exBadPriceRow] ∧
    currencyStep true true [exBadPriceRow] = .error () :=
  ⟨rfl, rfl⟩

/-- Claim C9 amended: STOCK is coerced to numeric with every non-numeric
value becoming missing (the coercion is total, it never raises), but
PRICE is never coerced, and a non-numeric PRICE value raises an error in
the currency-conversion step whenever the row's resolved rate is a float. -/
theorem numeric_coercion_stock_only (s : String) (hs : parseNumeric s = none)
    (r : Row) (u : String) (hp : r.price = .str u) (q : ℚ)
    (hrate : rateFor (normCode r.currency) = .f q) :
    to_numeric (.str s) = .na ∧ convertRow r = .error () := by
  constructor
  · simp [to_numeric, hs]
  · unfold convertRow
    rw [hp, hrate]
    rfl

/-- Witness for the amended C9 at the string price "N/A" under USD. -/
theorem numeric_coercion_stock_only_witness :
    to_numeric (.str "N/A") = .na ∧ convertRow exBadPriceRow = .error () :=
  numeric_coercion_stock_only "N/A" (by decide) exBadPriceRow "N/A" rfl 90.60 rfl

theorem pyMul_int_one (p : PyVal) : pyMul p (.i 1) = .ok p := by
  cases p with
  | num q => simp [pyMul, PyNum.toRat]
  | str s => simp [pyMul, strRepeat, String.append_empty]
  | na => rfl

theorem convertRow_currency (r r' : Row) (h : convertRow r = .ok r') :
    r'.currency = some "INR" := by
  unfold convertRow at h
  cases hm : pyMul r.price (rateFor (normCode r.currency)) with
  | ok p =>
    rw [hm] at h
    simp only [Except.ok.injEq] at h
    rw [← h]
  | error e =>
    rw [hm] at h
    simp at h

theorem convertRow_INR (r : Row) (h : r.currency = some "INR") :
    convertRow r = .ok r := by
  unfold convertRow
  rw [h]
  have hrate : rateFor (normCode (some "INR")) = .i 1 := rfl
  rw [hrate, pyMul_int_one]
  show Except.ok { r with currency := some "INR", price := r.price } = .ok r
  rw [← h]

theorem convertRows_idem :
    ∀ (rows out : List Row), convertRows rows = .ok out → convertRows out = .ok out := by
  intro rows
  induction rows with
  | nil =>
    intro out h
    simp only [convertRows, Except.ok.injEq] at h
    subst h
    rfl
  | cons r rs ih =>
    intro out h
    simp only [convertRows] at h
    cases hr : convertRow r with
    | error e => rw [hr] at h; simp at h
    | ok r' =>
      cases hrs : convertRows rs with
      | error e => rw [hr, hrs] at h; simp at h
      | ok rs' =>
        rw [hr, hrs] at h
        simp only [Except.ok.injEq] at h
        subst h
        have h1 : convertRow r' = .ok r' := convertRow_INR r' (convertRow_currency r r' hr)
        have h2 : convertRows rs' = .ok rs' := ih rs' hrs
        simp only [convertRows]
        rw [h1, h2]

/-- Counterexample to claim C10 as stated: a second run of the conversion
does not change PRICE — on this concrete already-converted table the
second run is the identity, because every converted row carries the base
code INR and INR resolves to the integer rate 1. -/
theorem conversion_not_idempotent_counterexample :
    currencyStep true true [exGbpRow] = .ok [exGbpRowConv] ∧
    currencyStep true true [exGbpRowConv] = .ok [exGbpRowConv] ∧
    exGbpRowConv.price ≠ exGbpRow.price := by
  refine ⟨rfl, ?_, ?_⟩
  · have h2 : convertRow exGbpRowConv = .ok exGbpRowConv := convertRow_INR exGbpRowConv rfl
    simp [currencyStep, convertRows, h2]
  · have hrate : rateFor (normCode exGbpRow.currency) = .f 113.80 := rfl
    show PyVal.num (20 * (rateFor (normCode exGbpRow.currency)).toRat) ≠ PyVal.num 20
    rw [hrate]
    show PyVal.num (20 * (113.80 : ℚ)) ≠ PyVal.num 20
    intro hcontra
    have h20 : (20 : ℚ) * 113.80 = 20 := PyVal.num.inj hcontra
    norm_num at h20

/-- Claim C10 amended: the conversion step is idempotent on its own
output — re-running it on an already-converted table returns that table
unchanged, since CURRENCY is INR everywhere and INR has rate 1. -/
theorem currency_conversion_idempotent (rows out : List Row)
    (h : currencyStep true true rows = .ok out) :
    currencyStep true true out = .ok out := by
  have hcv : convertRows rows = .ok out := by simpa [currencyStep] using h
  simpa [currencyStep] using convertRows_idem rows out hcv

/-- Witness for the amended C10 on a converted one-row table. -/
theorem currency_conversion_idempotent_witness :
    currencyStep true true [exNaPriceRowConv] = .ok [exNaPriceRowConv] :=
  currency_conversion_idempotent [exNaPriceRow] [exNaPriceRowConv] rfl

/-- Claim C6: for a source table with a STOCK column and a company with a
configured minimum, every retained row's STOCK is a number at least the
threshold, and a row whose STOCK coerces to missing (non-numeric or
absent) is never retained — also when the threshold is 0. -/
theorem stock_filter_threshold (rows : List Row) (company : String) (t : ℚ)
    (ht : List.lookup company STOCK_CONDITIONS = some t) :
    (∀ r ∈ stockFilterStep true company rows, ∃ q, r.stock = .num q ∧ t ≤ q) ∧
    (∀ r ∈ rows, to_numeric r.stock = .na →
      coerceStock r ∉ stockFilterStep true company rows) := by
  have hstep : stockFilterStep true company rows
      = (rows.map coerceStock).filter (fun r => pyGE r.stock t) := by
    unfold stockFilterStep
    rw [ht]
  constructor
  · intro r hr
    rw [hstep] at hr
    have hfilt := List.of_mem_filter hr
    cases hq : r.stock with
    | num q =>
      refine ⟨q, rfl, ?_⟩
      rw [hq] at hfilt
      simpa [pyGE] using hfilt
    | str s =>
      rw [hq] at hfilt
      simp [pyGE] at hfilt
    | na =>
      rw [hq] at hfilt
      simp [pyGE] at hfilt
  · intro r _ hna hmem
    rw [hstep] at hmem
    have hfilt := List.of_mem_filter hmem
    have hcs : (coerceStock r).stock = to_numeric r.stock := rfl
    rw [hcs, hna] at hfilt
    simp [pyGE] at hfilt

/-- Witness for C6 under the company Adarsh, threshold 10. -/
theorem stock_filter_threshold_witness :
    (∀ r ∈ stockFilterStep true "Adarsh" exStockTable, ∃ q, r.stock = .num q ∧ 10 ≤ q) ∧
    (∀ r ∈ exStockTable, to_numeric r.stock = .na →
      coerceStock r ∉ stockFilterStep true "Adarsh" exStockTable) :=
  stock_filter_threshold exStockTable "Adarsh" 10 rfl

theorem dupScan_nil (assigned dups : List String) : dupScan assigned dups [] = dups := rfl

theorem dupScan_cons (assigned dups : List String) (s : String) (rest : List String) :
    dupScan assigned dups (s :: rest) =
      if s = leaveBlank then dupScan assigned dups rest
      else if s ∈ assigned then dupScan assigned (dups ++ [s]) rest
      else dupScan (assigned ++ [s]) dups rest := rfl

/-- Invariant of the duplicate-scan loop: a field is in the final report
iff it is already in the duplicate accumulator, or it is a non-blank field
that the remaining selections repeat often enough (once if already
assigned, twice otherwise). -/
theorem mem_dupScan (f : String) :
    ∀ (l assigned dups : List String),
      leaveBlank ∉ assigned → leaveBlank ∉ dups →
      (f ∈ dupScan assigned dups l ↔
        (f ∈ dups ∨ (f ≠ leaveBlank ∧
          (if f ∈ assigned then 1 ≤ l.count f else 2 ≤ l.count f)))) := by
  intro l
  induction l with
  | nil =>
    intro assigned dups _ _
    rw [dupScan_nil]
    simp only [List.count_nil]
    constructor
    · exact Or.inl
    · rintro (h | ⟨_, hif⟩)
      · exact h
      · by_cases hmem : f ∈ assigned
        · rw [if_pos hmem] at hif; omega
        · rw [if_neg hmem] at hif; omega
  | cons s rest ih =>
    intro assigned dups ha hd
    rw [dupScan_cons]
    by_cases hs : s = leaveBlank
    · rw [if_pos hs]
      rw [ih assigned dups ha hd]
      by_cases hf : f = s
      · rw [hf, hs]
        simp
      · have hcount : (s :: rest).count f = rest.count f := by
          simp [List.count_cons, hf]
        rw [hcount]
    · rw [if_neg hs]
      by_cases hmem : s ∈ assigned
      · rw [if_pos hmem]
        have hd' : leaveBlank ∉ dups ++ [s] := by
          simp only [List.mem_append, List.mem_singleton]
          rintro (h | h)
          · exact hd h
          · exact hs h.symm
        rw [ih assigned (dups ++ [s]) ha hd']
        by_cases hf : f = s
        · subst hf
          have hfd : f ∈ dups ++ [f] := by simp
          have hcnt : (f :: rest).count f = rest.count f + 1 := by
            simp [List.count_cons]
          constructor
          · intro _
            refine Or.inr ⟨hs, ?_⟩
            rw [if_pos hmem, hcnt]
            omega
          · intro _
            exact Or.inl hfd
        · have hdups : f ∈ dups ++ [s] ↔ f ∈ dups := by simp [hf]
          have hcnt : (s :: rest).count f = rest.count f := by
            simp [List.count_cons, hf]
          rw [hdups, hcnt]
      · rw [if_neg hmem]
        have ha' : leaveBlank ∉ assigned ++ [s] := by
          simp only [List.mem_append, List.mem_singleton]
          rintro (h | h)
          · exact ha h
          · exact hs h.symm
        rw [ih (assigned ++ [s]) dups ha' hd]
        by_cases hf : f = s
        · subst hf
          have hfa : f ∈ assigned ++ [f] := by simp
          have hcnt : (f :: rest).count f = rest.count f + 1 := by
            simp [List.count_cons]
          rw [if_pos hfa, if_neg hmem, hcnt]
          constructor
          · rintro (h | ⟨_, hc⟩)
            · exact Or.inl h
            · exact Or.inr ⟨hs, by omega⟩
          · rintro (h | ⟨_, hc⟩)
            · exact Or.inl h
            · exact Or.inr ⟨hs, by omega⟩
        · have hassigned : f ∈ assigned ++ [s] ↔ f ∈ assigned := by simp [hf]
          have hcnt : (s :: rest).count f = rest.count f := by
            simp [List.count_cons, hf]
          rw [hcnt]
          by_cases hfa : f ∈ assigned
          · rw [if_pos (hassigned.mpr hfa), if_pos hfa]
          · rw [if_neg (fun h => hfa (hassigned.mp h)), if_neg hfa]

/-- The duplicate report of one source is exactly the set of non-blank
fields selected at least twice. -/
theorem mem_duplicate_assigned (selecteds : List String) (f : String) :
    f ∈ duplicate_assigned selecteds ↔ (f ≠ leaveBlank ∧ 2 ≤ selecteds.count f) := by
  unfold duplicate_assigned
  rw [mem_dupScan f selecteds [] [] (List.not_mem_nil _) (List.not_mem_nil _)]
  simp

/-- Claim C8: for a finalized mapping with a duplicated target, the
duplicate report names exactly the canonical fields selected more than
once, and while any file has a non-empty report the merge branch is never
entered. -/
theorem duplicate_detection_and_merge_gate (files : List SourceInput)
    (file : SourceInput) (hf : file ∈ files)
    (hd : duplicate_assigned file.selected ≠ []) (f : String) :
    (f ∈ duplicate_assigned file.selected ↔
      (f ≠ leaveBlank ∧ 2 ≤ file.selected.count f)) ∧
    runApp files = none := by
  refine ⟨mem_duplicate_assigned file.selected f, ?_⟩
  have hmem : (file.name, duplicate_assigned file.selected) ∈ duplicateErrors files := by
    unfold duplicateErrors
    rw [List.mem_filterMap]
    refine ⟨file, hf, ?_⟩
    simp [List.isEmpty_iff, hd]
  have hne : duplicateErrors files ≠ [] := List.ne_nil_of_mem hmem
  unfold runApp
  rw [if_neg]
  intro hcontra
  exact hne (List.isEmpty_iff.mp hcontra)

/-- Witness for C8 on a file that maps two columns to TITLE. -/
theorem duplicate_detection_and_merge_gate_witness :
    ("TITLE" ∈ duplicate_assigned exBadFile.selected ↔
      ("TITLE" ≠ leaveBlank ∧ 2 ≤ exBadFile.selected.count "TITLE")) ∧
    runApp [exBadFile] = none :=
  duplicate_detection_and_merge_gate [exBadFile] exBadFile (by decide) (by decide) "TITLE"

theorem categorize_company_def (r : Row) :
    (categorizeCompany r).company =
      match r.company with
      | some s => if s ∈ COMPANY_ORDER then some s else none
      | none => none := rfl

theorem rankLE_trans (a b c : Option Nat) (h1 : rankLE a b = true) (h2 : rankLE b c = true) :
    rankLE a c = true := by
  cases a with
  | none =>
    cases b with
    | none => exact h2
    | some y => simp [rankLE] at h1
  | some x =>
    cases c with
    | none => simp [rankLE]
    | some z =>
      cases b with
      | none => simp [rankLE] at h2
      | some y =>
        simp only [rankLE, decide_eq_true_eq] at h1 h2 ⊢
        omega

theorem indexOf?_company_ne_none (s : String) (h : s ∈ COMPANY_ORDER) :
    List.indexOf? s COMPANY_ORDER ≠ none := by
  intro hnone
  have := List.indexOf?_eq_none_iff.mp hnone s h
  simp at this

theorem categorized_company_cases (r : Row) :
    (categorizeCompany r).company = none ∨
    ∃ s, (categorizeCompany r).company = some s ∧ s ∈ COMPANY_ORDER := by
  rw [categorize_company_def]
  cases hc : r.company with
  | none => exact Or.inl rfl
  | some s =>
    by_cases hmem : s ∈ COMPANY_ORDER
    · exact Or.inr ⟨s, by simp [hmem], hmem⟩
    · exact Or.inl (by simp [hmem])

theorem rank_none_company_none (r0 : Row)
    (h : rowRank (categorizeCompany r0) = none) :
    (categorizeCompany r0).company = none := by
  rcases categorized_company_cases r0 with hnone | ⟨s, hsome, hmem⟩
  · exact hnone
  · exfalso
    unfold rowRank at h
    rw [hsome] at h
    exact indexOf?_company_ne_none s hmem h

theorem rankLE_none_forces (x : Option Nat) (h : rankLE none x = true) : x = none := by
  cases x with
  | none => rfl
  | some y => simp [rankLE] at h

/-- Claim C5: the categorical sort key replaces every stamped COMPANY that
is not one of the seven names of the priority list by "no value", and in
any output of the sort all such rows are placed after every row whose
company is in the list. -/
theorem unlisted_company_nulled_and_last (rows out : List Row)
    (hperm : (rows.map categorizeCompany).Perm out)
    (hsort : sortedByCompany out) :
    (∀ r ∈ rows, ∀ s, r.company = some s → s ∉ COMPANY_ORDER →
      (categorizeCompany r).company = none) ∧
    (∀ p q : Fin out.length, p < q →
      (out.get p).company = none → (out.get q).company = none) := by
  constructor
  · intro r _ s hs hmem
    rw [categorize_company_def, hs]
    simp [hmem]
  · intro p q hpq hpnone
    haveI : IsTrans Row (fun a b => rankLE (rowRank a) (rowRank b) = true) :=
      ⟨fun a b c h1 h2 => rankLE_trans _ _ _ h1 h2⟩
    have hpair : List.Pairwise (fun a b => rankLE (rowRank a) (rowRank b) = true) out :=
      List.chain'_iff_pairwise.mp hsort
    have hR := List.pairwise_iff_get.mp hpair p q hpq
    have hrp : rowRank (out.get p) = none := by
      unfold rowRank
      rw [hpnone]
    rw [hrp] at hR
    have hrq : rowRank (out.get q) = none := rankLE_none_forces _ hR
    have hqmem : out.get q ∈ out := List.get_mem out q.val q.isLt
    have hqmem2 : out.get q ∈ rows.map categorizeCompany := (hperm.mem_iff).mpr hqmem
    rcases List.mem_map.mp hqmem2 with ⟨r0, _, hr0⟩
    rw [← hr0] at hrq
    rw [← hr0]
    exact rank_none_company_none r0 hrq

/-- Witness for C5: RUPA is stamped but not in the priority list; in the
sorted output its row is nulled and placed after the GBD row. -/
theorem unlisted_company_nulled_and_last_witness :
    (∀ r ∈ exSortRows, ∀ s, r.company = some s → s ∉ COMPANY_ORDER →
      (categorizeCompany r).company = none) ∧
    (∀ p q : Fin exSortOut.length, p < q →
      (exSortOut.get p).company = none → (exSortOut.get q).company = none) :=
  unlisted_company_nulled_and_last exSortRows exSortOut (by decide)
    (by unfold sortedByCompany exSortOut
        simp only [List.chain'_cons, List.chain'_singleton, and_true]
        decide)

end Merger
